import Mathlib

/-!
Shallow embedding of the temporal snapshot-diff and status-history engine of
the miplist-report repository (src/generate_report.py), together with proofs
of the specification's claims about it.

Dates: the program stores publish dates as "m/d/Y" strings and parses them
with a fixed format (datetime.strptime) before any comparison; parsing fails
fast on malformed dates (spec section 7) and is injective and order-preserving
on the well-formed distinct dates the engine requires, so a date is embedded
here as its parsed value, a natural number.  datetime.min is embedded as 0.
-/

namespace MIP

/-- Entity key: the (module_name, vendor_name, standard) triple. -/
abbrev Key : Type := String × String × String

/-- One database row: (publish_date, module_name, vendor_name, standard, status). -/
structure Row where
  pub : Nat
  name : String
  vendor : String
  std : String
  status : String
deriving DecidableEq

/-- Key of a row, columns 1..3 of the 5-tuple. -/
def rowKey (r : Row) : Key := (r.name, r.vendor, r.std)

/-- Python str.strip on a character list: drop whitespace from both ends. -/
def pyStrip (l : List Char) : List Char :=
  ((l.dropWhile Char.isWhitespace).reverse.dropWhile Char.isWhitespace).reverse

/-- Python s.strip() on strings. -/
def stripStr (s : String) : String := String.mk (pyStrip s.data)

/-- Characters before the first opening parenthesis: raw.split("(")[0]. -/
def beforeParen : List Char → List Char
  | [] => []
  | c :: cs => if c = '(' then [] else c :: beforeParen cs

/-- normalize_status (generate_report.py line 38): raw.split("(")[0].strip(). -/
def normalize_status (s : String) : String := String.mk (pyStrip (beforeParen s.data))

/-- Lookup in an association list (Python dict read). -/
def alookup {α β : Type} [DecidableEq α] : List (α × β) → α → Option β
  | [], _ => none
  | p :: t, x => if p.1 = x then some p.2 else alookup t x

/-- Python dict assignment d[k] = v: replace in place, or append a new key. -/
def dictInsert {α β : Type} [DecidableEq α] : List (α × β) → α → β → List (α × β)
  | [], k, v => [(k, v)]
  | p :: t, k, v => if p.1 = k then (k, v) :: t else p :: dictInsert t k v

/-- Dict built from a list of pairs in order; later pairs overwrite earlier
ones with the same key, as in a Python dict comprehension. -/
def dictOf {α β : Type} [DecidableEq α] (ps : List (α × β)) : List (α × β) :=
  ps.foldl (fun m p => dictInsert m p.1 p.2) []

/-- Python d.setdefault(k, []).append(b). -/
def appendAt {α β : Type} [DecidableEq α] : List (α × List β) → α → β → List (α × List β)
  | [], k, b => [(k, [b])]
  | p :: t, k, b => if p.1 = k then (p.1, p.2 ++ [b]) :: t else p :: appendAt t k b

/-- Stable insertion step: a is placed before the first element b with le a b,
so elements equal to a that were already in the list stay behind it. -/
def insS {α : Type} (le : α → α → Bool) (a : α) : List α → List α
  | [] => [a]
  | b :: t => if le a b then a :: b :: t else b :: insS le a t

/-- Stable sort; Python's list.sort and sorted() are stable, and a stable sort
is determined uniquely by the total preorder, so insertion sort is a faithful
model of both. -/
def sortS {α : Type} (le : α → α → Bool) : List α → List α
  | [] => []
  | a :: t => insS le a (sortS le t)

/-- Strict lexicographic comparison of keys, as Python compares 3-tuples. -/
def keyLt (a b : Key) : Bool :=
  if a.1 = b.1 then
    (if a.2.1 = b.2.1 then decide (a.2.2 < b.2.2) else decide (a.2.1 < b.2.1))
  else decide (a.1 < b.1)

/-- Lexicographic order on (key, status) pairs as Python sorts them. -/
def pairLe (a b : Key × String) : Bool :=
  if a.1 = b.1 then decide (a.2 ≤ b.2) else keyLt a.1 b.1

/-- Lexicographic order on (key, old_status, new_status) triples. -/
def tripLe (a b : Key × String × String) : Bool :=
  if a.1 = b.1 then
    (if a.2.1 = b.2.1 then decide (a.2.2 ≤ b.2.2) else decide (a.2.1 < b.2.1))
  else keyLt a.1 b.1

/-- rows_for (generate_report.py lines 89-93): the snapshot of one date as a
dict key -> stripped raw status; the dict comprehension makes the last row win
on duplicate keys. -/
def rowsFor (rows : List Row) (d : Nat) : List (Key × String) :=
  dictOf ((rows.filter (fun r => r.pub == d)).map (fun r => (rowKey r, stripStr r.status)))

/-- added (line 98): keys of the new snapshot absent from the old one. -/
def addedOf (old new : List (Key × String)) : List (Key × String) :=
  sortS pairLe (new.filter (fun p => (alookup old p.1).isNone))

/-- removed (line 99): keys of the old snapshot absent from the new one. -/
def removedOf (old new : List (Key × String)) : List (Key × String) :=
  sortS pairLe (old.filter (fun p => (alookup new p.1).isNone))

/-- changed (line 100): keys in both snapshots whose normalized status
differs, carrying (key, old_raw, new_raw). -/
def changedOf (old new : List (Key × String)) : List (Key × String × String) :=
  sortS tripLe (new.filterMap (fun p =>
    match alookup old p.1 with
    | some ov => if normalize_status p.2 = normalize_status ov then none
                 else some (p.1, ov, p.2)
    | none => none))

/-- compute_changes (lines 81-102).  The fallback arm of the match is exactly
the early return for len(dates) < 2, whose second component is
"dates[-1] if dates else None". -/
def compute_changes (dates : List Nat) (all_rows : List Row) :
    Option Nat × Option Nat × List (Key × String) × List (Key × String) ×
      List (Key × String × String) :=
  match dates.reverse with
  | nd :: pd :: _ =>
    (some pd, some nd,
      addedOf (rowsFor all_rows pd) (rowsFor all_rows nd),
      removedOf (rowsFor all_rows pd) (rowsFor all_rows nd),
      changedOf (rowsFor all_rows pd) (rowsFor all_rows nd))
  | _ => (none, dates.getLast?, [], [], [])

/-- Key set of one snapshot: the distinct entity keys among the rows of one
publish date (the key set of the rows_for dict). -/
def snapshotKeys (rows : List Row) (d : Nat) : Finset Key :=
  ((rows.filter (fun r => r.pub == d)).map rowKey).toFinset

/-- Modelled from the spec: the count of silently-unchanged keys — present in
both snapshots with equal normalized status.  The code never materializes this
list (section 4.2: "neither reported nor retained"); the spec only counts it. -/
def unchangedCount (old new : List (Key × String)) : Nat :=
  (new.filter (fun p =>
    match alookup old p.1 with
    | some ov => decide (normalize_status p.2 = normalize_status ov)
    | none => false)).length

/-- date_dt.get(d, datetime.min): date_dt maps every date of the axis to its
parsed value (embedded as the date itself); the default is below every date. -/
def dateGet (dates : List Nat) (d : Nat) : Nat := if d ∈ dates then d else 0

/-- The backward walk of compute_module_stats (lines 185-189): starting from
run_start = last date, extend the run over the reversed prefix while the
normalized status equals the current one, stop at the first difference. -/
def runWalk (current : String) : List (Nat × String) → Nat → Nat
  | [], r0 => r0
  | e :: rest, r0 => if e.2 = current then runWalk current rest e.1 else r0

/-- status_since for one history (lines 183-190): the start date of the
current unbroken normalized-status run; none on an empty history, where the
code would fail on entries[-1]. -/
def status_since (entries : List (Nat × String)) : Option Nat :=
  match entries.getLast? with
  | none => none
  | some last => some (runWalk last.2 (entries.dropLast.reverse) last.1)

/-- History grouping of compute_module_stats (lines 173-176):
history.setdefault(key, []).append((pub_date, normalize_status(status))). -/
def statsHistoryMap (rows : List Row) : List (Key × List (Nat × String)) :=
  rows.foldl (fun m r => appendAt m (rowKey r) (r.pub, normalize_status r.status)) []

/-- Sort key of line 179: date_dt.get(x[0], datetime.min). -/
def entryDateLe (dates : List Nat) (a b : Nat × String) : Bool :=
  decide (dateGet dates a.1 ≤ dateGet dates b.1)

/-- Chronological sort of one history (lines 178-179). -/
def sortEntries (dates : List Nat) (es : List (Nat × String)) : List (Nat × String) :=
  sortS (entryDateLe dates) es

/-- compute_module_stats (lines 166-192): status_since per key. -/
def compute_module_stats (rows : List Row) (dates : List Nat) :
    List (Key × Option Nat) :=
  (statsHistoryMap rows).map (fun p => (p.1, status_since (sortEntries dates p.2)))

/-- Match of the full status-date pattern at the head of the list: an opening
parenthesis, one or two digits, a slash, one or two digits, a slash, exactly
four digits, a closing parenthesis; returns the captured group (the date
without the parentheses).  The digit runs are delimited by the mandatory
slash/parenthesis that follows, so maximal-munch followed by a length check is
equivalent to the regex with backtracking. -/
def matchDateAt : List Char → Option (List Char)
  | '(' :: rest =>
    let a := rest.takeWhile Char.isDigit
    let r1 := rest.dropWhile Char.isDigit
    if a.length = 0 ∨ 2 < a.length then none else
    match r1 with
    | '/' :: r2 =>
      let b := r2.takeWhile Char.isDigit
      let r3 := r2.dropWhile Char.isDigit
      if b.length = 0 ∨ 2 < b.length then none else
      match r3 with
      | '/' :: r4 =>
        let c := r4.takeWhile Char.isDigit
        let r5 := r4.dropWhile Char.isDigit
        if c.length = 4 then
          match r5 with
          | ')' :: _ => some (a ++ '/' :: (b ++ '/' :: c))
          | _ => none
        else none
      | _ => none
    | _ => none
  | _ => none

/-- re.search: try the pattern at each position from the left, first match
wins. -/
def searchDateGroup : List Char → Option (List Char)
  | [] => none
  | c :: t =>
    match matchDateAt (c :: t) with
    | some g => some g
    | none => searchDateGroup t

/-- Embedded-date extraction, status_date_re.search(status).group(1) as used
in build_module_histories (lines 204-210); the spec names this function
extract_embedded_date. -/
def extract_embedded_date (s : String) : Option String :=
  (searchDateGroup s.data).map String.mk

/-- Modelled from the spec (section 3): the first parenthesized group of a
string — the characters strictly between the first opening parenthesis and
the next closing parenthesis; null when there is no complete group. -/
def specFirstParenGroup (l : List Char) : Option (List Char) :=
  match l.dropWhile (fun c => c != '(') with
  | _ :: rest =>
    if (rest.dropWhile (fun c => c != ')')).isEmpty then none
    else some (rest.takeWhile (fun c => c != ')'))
  | [] => none

/-- Modelled from the spec: a match of the bare pattern D1-2/D1-2/D4 at the
head of the list.  The bare pattern has no trailing delimiter after the last
digit group, so the final run only needs at least four digits, of which the
first four are taken. -/
def matchBareDateAt (l : List Char) : Option (List Char) :=
  let a := l.takeWhile Char.isDigit
  let r1 := l.dropWhile Char.isDigit
  if a.length = 0 ∨ 2 < a.length then none else
  match r1 with
  | '/' :: r2 =>
    let b := r2.takeWhile Char.isDigit
    let r3 := r2.dropWhile Char.isDigit
    if b.length = 0 ∨ 2 < b.length then none else
    match r3 with
    | '/' :: r4 =>
      let c := r4.takeWhile Char.isDigit
      if 4 ≤ c.length then some (a ++ '/' :: (b ++ '/' :: c.take 4)) else none
    | _ => none
  | _ => none

/-- Modelled from the spec: leftmost match of the bare date pattern. -/
def searchBareDate : List Char → Option (List Char)
  | [] => none
  | c :: t =>
    match matchBareDateAt (c :: t) with
    | some g => some g
    | none => searchBareDate t

/-- Modelled from the spec (section 4.1): extract_embedded_date as the spec
sentence states it — search for the first date-pattern substring inside the
first parenthesized group only; null when that group has no match, including
when there is no parenthesized group at all. -/
def specExtractEmbeddedDate (s : String) : Option String :=
  ((specFirstParenGroup s.data).bind searchBareDate).map String.mk

/-- One step of the last-seen scan of disappearances_html (lines 277-280):
record the row when the key is new or when its date is strictly greater than
the recorded one. -/
def lastStatusStep (dates : List Nat) (m : List (Key × Nat × String)) (r : Row) :
    List (Key × Nat × String) :=
  match alookup m (rowKey r) with
  | none => dictInsert m (rowKey r) (r.pub, normalize_status r.status)
  | some q =>
    if dateGet dates q.1 < dateGet dates r.pub then
      dictInsert m (rowKey r) (r.pub, normalize_status r.status)
    else m

/-- last_status of disappearances_html: key -> (last_publish_date, last
normalized status). -/
def lastStatusMap (dates : List Nat) (rows : List Row) : List (Key × Nat × String) :=
  rows.foldl (lastStatusStep dates) []

/-- Per-key view of one lastStatusStep: how the recorded (date, status) pair
of a fixed key evolves when one of its rows is scanned. -/
def lsUpd (dates : List Nat) (acc : Option (Nat × String)) (r : Row) : Option (Nat × String) :=
  match acc with
  | none => some (r.pub, normalize_status r.status)
  | some q =>
    if dateGet dates q.1 < dateGet dates r.pub then some (r.pub, normalize_status r.status)
    else some q

/-- The terminal-status set of disappearances_html (line 272). -/
def terminalStatuses : List String := ["Finalization"]

/-- sorted_dates[-1] (lines 274, 282): the most recent date of the axis.  The
code would fail on an empty axis; the default 0 only totalizes the function,
every claim about it assumes a nonempty axis. -/
def mostRecentDate (dates : List Nat) : Nat :=
  ((sortS (fun a b => decide (dateGet dates a ≤ dateGet dates b)) dates).getLast?).getD 0

/-- Sort comparison of line 292: by last-seen date, descending, stable. -/
def descByLastDate (dates : List Nat) (a b : Key × Nat × String) : Bool :=
  decide (dateGet dates b.2.1 ≤ dateGet dates a.2.1)

/-- The disappeared list of disappearances_html (lines 283-292): entities
whose last-seen date is not the most recent date and whose last normalized
status is not terminal, sorted by last-seen date descending. -/
def disappearedList (rows : List Row) (dates : List Nat) : List (Key × Nat × String) :=
  sortS (descByLastDate dates)
    ((lastStatusMap dates rows).filterMap (fun p =>
      if p.2.1 ≠ mostRecentDate dates ∧ p.2.2 ∉ terminalStatuses then some p else none))

/-- String key "mn||vn||std" of build_module_histories (line 208). -/
def keyStr (k : Key) : String := k.1 ++ "||" ++ k.2.1 ++ "||" ++ k.2.2

/-- One history record of build_module_histories (line 211):
(publish date, normalized status, embedded status date). -/
def histEntry (r : Row) : Nat × String × Option String :=
  (r.pub, normalize_status r.status, extract_embedded_date r.status)

/-- Sort key of line 214: date_dt.get(x[0], datetime.min). -/
def histDateLe (dates : List Nat) (a b : Nat × String × Option String) : Bool :=
  decide (dateGet dates a.1 ≤ dateGet dates b.1)

/-- build_module_histories (lines 195-216): group the rows whose key is
requested under the joined string key, keep input order, then sort each group
chronologically. -/
def build_module_histories (rows : List Row) (dates : List Nat) (keys : List Key) :
    List (String × List (Nat × String × Option String)) :=
  (rows.foldl
    (fun m r => if rowKey r ∈ keys then appendAt m (keyStr (rowKey r)) (histEntry r) else m)
    []).map (fun p => (p.1, sortS (histDateLe dates) p.2))

/-! Basic dropWhile facts used for the strip function. -/

theorem dropWhile_head_false {α : Type} (p : α → Bool) (l : List α) :
    l.dropWhile p = [] ∨ ∃ a t, l.dropWhile p = a :: t ∧ p a = false := by
  induction l with
  | nil => left; rfl
  | cons c cs ih =>
    by_cases h : p c = true
    · simpa [List.dropWhile_cons, h] using ih
    · right
      exact ⟨c, cs, by simp [List.dropWhile_cons, h], by simpa using h⟩

theorem dropWhile_cons_of_false {α : Type} (p : α → Bool) (a : α) (t : List α)
    (h : p a = false) : (a :: t).dropWhile p = a :: t := by
  simp [List.dropWhile_cons, h]

theorem dropWhile_dropWhile {α : Type} (p : α → Bool) (l : List α) :
    (l.dropWhile p).dropWhile p = l.dropWhile p := by
  rcases dropWhile_head_false p l with h | ⟨a, t, h, ha⟩
  · rw [h]; rfl
  · rw [h, dropWhile_cons_of_false p a t ha]

theorem mem_pyStrip {c : Char} {l : List Char} (h : c ∈ pyStrip l) : c ∈ l := by
  unfold pyStrip at h
  rw [List.mem_reverse] at h
  have h1 := (List.dropWhile_sublist Char.isWhitespace
    (l := (l.dropWhile Char.isWhitespace).reverse)).mem h
  rw [List.mem_reverse] at h1
  exact (List.dropWhile_sublist Char.isWhitespace (l := l)).mem h1

theorem pyStrip_idem (l : List Char) : pyStrip (pyStrip l) = pyStrip l := by
  unfold pyStrip
  set p := Char.isWhitespace with hp
  set A := l.dropWhile p with hA
  set B := A.reverse.dropWhile p with hB
  rcases dropWhile_head_false p A.reverse with hB0 | ⟨b, bt, hBc, hbf⟩
  · rw [← hB] at hB0
    rw [hB0]
    rfl
  · have hBne : B ≠ [] := by rw [hB, hBc]; exact List.cons_ne_nil _ _
    -- the head of B.reverse is the head of A, which fails p
    have hsplit : A.reverse.takeWhile p ++ B = A.reverse := by
      rw [hB]; exact List.takeWhile_append_dropWhile p A.reverse
    have hAeq : B.reverse ++ (A.reverse.takeWhile p).reverse = A := by
      have := congrArg List.reverse hsplit
      rwa [List.reverse_append, List.reverse_reverse] at this
    rcases dropWhile_head_false p l with hA0 | ⟨a, t, hAc, haf⟩
    · rw [← hA] at hA0
      have : B = [] := by rw [hB, hA0]; rfl
      exact absurd this hBne
    · rw [← hA] at hAc
      obtain ⟨x, xs, hBr⟩ := List.exists_cons_of_ne_nil
        (fun h => hBne (by simpa using congrArg List.reverse h) : B.reverse ≠ [])
      have hxa : x = a := by
        have := hAeq
        rw [hBr, hAc] at this
        exact (List.cons.injEq _ _ _ _ ▸ this).1
      have hdrop1 : B.reverse.dropWhile p = B.reverse := by
        rw [hBr, hxa] at *
        exact dropWhile_cons_of_false p a xs haf
      rw [hdrop1, List.reverse_reverse]
      have hdrop2 : B.dropWhile p = B := by
        rw [hB]; exact dropWhile_dropWhile p A.reverse
      rw [hdrop2]

theorem beforeParen_not_mem (l : List Char) : '(' ∉ beforeParen l := by
  induction l with
  | nil => simp [beforeParen]
  | cons c cs ih =>
    by_cases h : c = '('
    · simp [beforeParen, h]
    · simp only [beforeParen, if_neg h, List.mem_cons]
      rintro (hc | hc)
      · exact h hc.symm
      · exact ih hc

theorem beforeParen_of_not_mem {l : List Char} (h : '(' ∉ l) : beforeParen l = l := by
  induction l with
  | nil => rfl
  | cons c cs ih =>
    have hc : ¬ c = '(' := fun hc => h (hc ▸ List.mem_cons_self c cs)
    simp only [beforeParen, if_neg hc]
    rw [ih (fun hm => h (List.mem_cons_of_mem c hm))]

/-- C9: Status normalization is total and idempotent: for every string s,
including the empty string, normalize_status returns a string (it is a total
Lean function, so it cannot fail), and normalizing twice equals normalizing
once. -/
theorem c9_normalize_total_idempotent :
    (∀ s : String, normalize_status (normalize_status s) = normalize_status s) ∧
      normalize_status "" = "" := by
  constructor
  · intro s
    show String.mk (pyStrip (beforeParen (pyStrip (beforeParen s.data)))) = _
    rw [beforeParen_of_not_mem
      (fun hmem => beforeParen_not_mem s.data (mem_pyStrip hmem))]
    rw [pyStrip_idem]
    rfl
  · rfl

/-! Association-list lemmas: the dict model. -/

theorem alookup_dictInsert {α β : Type} [DecidableEq α] (m : List (α × β)) (k : α) (v : β)
    (x : α) : alookup (dictInsert m k v) x = if x = k then some v else alookup m x := by
  induction m with
  | nil =>
    show alookup [(k, v)] x = _
    by_cases h : x = k
    · simp [alookup, h]
    · simp only [alookup]
      rw [if_neg (fun hx : k = x => h hx.symm), if_neg h]
  | cons p t ih =>
    show alookup (if p.1 = k then (k, v) :: t else p :: dictInsert t k v) x = _
    by_cases hpk : p.1 = k
    · rw [if_pos hpk]
      by_cases hxk : x = k
      · simp [alookup, hxk]
      · simp only [alookup]
        rw [if_neg (fun hx : k = x => hxk hx.symm), if_neg hxk,
          if_neg (fun hx : p.1 = x => hxk (hpk ▸ hx).symm)]
    · rw [if_neg hpk]
      by_cases hpx : p.1 = x
      · have hxk : ¬ x = k := fun h => hpk (hpx.trans h)
        simp [alookup, hpx, hxk]
      · simp only [alookup, if_neg hpx]
        exact ih

theorem mem_keys_iff_alookup {α β : Type} [DecidableEq α] (m : List (α × β)) (x : α) :
    x ∈ m.map Prod.fst ↔ ∃ v, alookup m x = some v := by
  induction m with
  | nil => simp [alookup]
  | cons p t ih =>
    by_cases h : p.1 = x
    · simp [alookup, h]
    · simp only [List.map_cons, List.mem_cons, alookup, if_neg h]
      rw [← ih]
      constructor
      · rintro (hx | hx)
        · exact absurd hx.symm h
        · exact hx
      · exact fun hx => Or.inr hx

theorem alookup_eq_none_iff {α β : Type} [DecidableEq α] (m : List (α × β)) (x : α) :
    alookup m x = none ↔ x ∉ m.map Prod.fst := by
  rw [mem_keys_iff_alookup]
  cases h : alookup m x with
  | none => simp
  | some v => simp [h]

theorem mem_of_alookup_eq_some {α β : Type} [DecidableEq α] {m : List (α × β)} {x : α}
    {v : β} (h : alookup m x = some v) : (x, v) ∈ m := by
  induction m with
  | nil => simp [alookup] at h
  | cons p t ih =>
    simp only [alookup] at h
    split at h
    · rename_i hpx
      obtain ⟨a, b⟩ := p
      simp only at hpx
      cases hpx
      cases Option.some.inj h
      exact List.mem_cons_self _ _
    · exact List.mem_cons_of_mem p (ih h)

theorem alookup_of_mem_nodup {α β : Type} [DecidableEq α] {m : List (α × β)}
    (hnd : (m.map Prod.fst).Nodup) {k : α} {v : β} (h : (k, v) ∈ m) :
    alookup m k = some v := by
  induction m with
  | nil => simp at h
  | cons p t ih =>
    rcases List.mem_cons.mp h with hp | hp
    · rw [← hp]
      simp [alookup]
    · have hnd' : p.1 ∉ t.map Prod.fst ∧ (t.map Prod.fst).Nodup := by
        simpa [List.nodup_cons] using hnd
      have hk : k ∈ t.map Prod.fst := List.mem_map.mpr ⟨(k, v), hp, rfl⟩
      have hpk : ¬ p.1 = k := fun hpk => hnd'.1 (hpk ▸ hk)
      simp only [alookup, if_neg hpk]
      exact ih hnd'.2 hp

theorem mem_keys_dictInsert {α β : Type} [DecidableEq α] (m : List (α × β)) (k : α) (v : β)
    (x : α) : x ∈ (dictInsert m k v).map Prod.fst ↔ x = k ∨ x ∈ m.map Prod.fst := by
  rw [mem_keys_iff_alookup, mem_keys_iff_alookup]
  rw [show ∀ y, alookup (dictInsert m k v) y = _ from fun y => alookup_dictInsert m k v y]
  by_cases h : x = k <;> simp [h]

theorem nodup_keys_dictInsert {α β : Type} [DecidableEq α] {m : List (α × β)}
    (hnd : (m.map Prod.fst).Nodup) (k : α) (v : β) :
    ((dictInsert m k v).map Prod.fst).Nodup := by
  induction m with
  | nil => simp [dictInsert]
  | cons p t ih =>
    show ((if p.1 = k then (k, v) :: t else p :: dictInsert t k v).map Prod.fst).Nodup
    have hnd' : p.1 ∉ t.map Prod.fst ∧ (t.map Prod.fst).Nodup := by
      simpa [List.nodup_cons] using hnd
    rcases hnd' with ⟨hp, ht⟩
    by_cases hpk : p.1 = k
    · rw [if_pos hpk]
      simp only [List.map_cons, List.nodup_cons]
      exact ⟨hpk ▸ hp, ht⟩
    · rw [if_neg hpk]
      simp only [List.map_cons, List.nodup_cons]
      refine ⟨fun hmem => ?_, ih ht⟩
      rcases (mem_keys_dictInsert t k v p.1).mp hmem with h | h
      · exact hpk h
      · exact hp h

theorem nodup_keys_dictOf {α β : Type} [DecidableEq α] (ps : List (α × β)) :
    ((dictOf ps).map Prod.fst).Nodup := by
  suffices h : ∀ m : List (α × β), (m.map Prod.fst).Nodup →
      ((ps.foldl (fun m p => dictInsert m p.1 p.2) m).map Prod.fst).Nodup from
    h [] (by simp)
  induction ps with
  | nil => exact fun m hm => hm
  | cons p t ih =>
    intro m hm
    exact ih (dictInsert m p.1 p.2) (nodup_keys_dictInsert hm p.1 p.2)

theorem alookup_foldl_dictInsert {α β : Type} [DecidableEq α] (ps : List (α × β))
    (m : List (α × β)) (x : α) :
    alookup (ps.foldl (fun m p => dictInsert m p.1 p.2) m) x =
      ps.foldl (fun acc p => if p.1 = x then some p.2 else acc) (alookup m x) := by
  induction ps generalizing m with
  | nil => rfl
  | cons p t ih =>
    show alookup (t.foldl _ (dictInsert m p.1 p.2)) x = _
    rw [ih (dictInsert m p.1 p.2), alookup_dictInsert, List.foldl_cons]
    congr 1
    by_cases h : p.1 = x
    · rw [if_pos h, if_pos h.symm]
    · rw [if_neg h, if_neg (fun hx : x = p.1 => h hx.symm)]

theorem alookup_dictOf {α β : Type} [DecidableEq α] (ps : List (α × β)) (x : α) :
    alookup (dictOf ps) x =
      ps.foldl (fun acc p => if p.1 = x then some p.2 else acc) none := by
  unfold dictOf
  rw [alookup_foldl_dictInsert]
  rfl

theorem lastUpd_of_none {α β : Type} [DecidableEq α] {ps : List (α × β)} {x : α}
    (h : ∀ p ∈ ps, p.1 ≠ x) (acc : Option β) :
    ps.foldl (fun acc p => if p.1 = x then some p.2 else acc) acc = acc := by
  induction ps generalizing acc with
  | nil => rfl
  | cons p t ih =>
    show t.foldl _ (if p.1 = x then some p.2 else acc) = acc
    rw [if_neg (h p (List.mem_cons_self p t))]
    exact ih (fun q hq => h q (List.mem_cons_of_mem p hq)) acc

theorem lastUpd_of_split {α β : Type} [DecidableEq α] {u v : List (α × β)} {q : α × β}
    {x : α} (hq : q.1 = x) (hv : ∀ p ∈ v, p.1 ≠ x) (acc : Option β) :
    (u ++ q :: v).foldl (fun acc p => if p.1 = x then some p.2 else acc) acc = some q.2 := by
  induction u generalizing acc with
  | nil =>
    show v.foldl _ (if q.1 = x then some q.2 else acc) = _
    rw [if_pos hq]
    exact lastUpd_of_none hv (some q.2)
  | cons p t ih =>
    exact ih _

theorem lastUpd_eq_none_iff {α β : Type} [DecidableEq α] (ps : List (α × β)) (x : α)
    (acc : Option β) :
    ps.foldl (fun acc p => if p.1 = x then some p.2 else acc) acc = none ↔
      (acc = none ∧ ∀ p ∈ ps, p.1 ≠ x) := by
  induction ps generalizing acc with
  | nil => simp
  | cons p t ih =>
    show t.foldl _ (if p.1 = x then some p.2 else acc) = none ↔ _
    rw [ih]
    by_cases h : p.1 = x
    · simp [h]
    · simp only [if_neg h, List.mem_cons]
      constructor
      · rintro ⟨ha, hall⟩
        exact ⟨ha, fun q hq => by
          rcases hq with hq | hq
          · rw [hq]; exact h
          · exact hall q hq⟩
      · rintro ⟨ha, hall⟩
        exact ⟨ha, fun q hq => hall q (Or.inr hq)⟩

theorem keys_dictOf_toFinset {α β : Type} [DecidableEq α] (ps : List (α × β)) :
    ((dictOf ps).map Prod.fst).toFinset = (ps.map Prod.fst).toFinset := by
  apply Finset.ext
  intro x
  rw [List.mem_toFinset, List.mem_toFinset, mem_keys_iff_alookup]
  constructor
  · rintro ⟨v, hv⟩
    rw [alookup_dictOf] at hv
    by_contra hmem
    have hall : ∀ p ∈ ps, p.1 ≠ x := by
      intro p hp hpx
      exact hmem (List.mem_map.mpr ⟨p, hp, hpx⟩)
    rw [lastUpd_of_none hall none] at hv
    exact Option.noConfusion hv
  · intro hmem
    rcases List.mem_map.mp hmem with ⟨p, hp, hpx⟩
    cases h : alookup (dictOf ps) x with
    | some v => exact ⟨v, rfl⟩
    | none =>
      rw [alookup_dictOf, lastUpd_eq_none_iff] at h
      exact absurd hpx (h.2 p hp)

theorem length_dictOf {α β : Type} [DecidableEq α] (ps : List (α × β)) :
    (dictOf ps).length = (ps.map Prod.fst).toFinset.card := by
  rw [← keys_dictOf_toFinset, List.card_toFinset,
    (nodup_keys_dictOf ps).dedup, List.length_map]

/-! Stable-sort lemmas. -/

theorem insS_ne_nil {α : Type} (le : α → α → Bool) (a : α) (l : List α) :
    insS le a l ≠ [] := by
  cases l with
  | nil => simp [insS]
  | cons b t =>
    show (if le a b then a :: b :: t else b :: insS le a t) ≠ []
    by_cases h : le a b <;> simp [h]

theorem perm_insS {α : Type} (le : α → α → Bool) (a : α) (l : List α) :
    (insS le a l).Perm (a :: l) := by
  induction l with
  | nil => exact List.Perm.refl _
  | cons b t ih =>
    show (if le a b then a :: b :: t else b :: insS le a t).Perm _
    by_cases h : le a b
    · rw [if_pos h]
    · rw [if_neg h]
      exact (ih.cons b).trans (List.Perm.swap a b t)

theorem perm_sortS {α : Type} (le : α → α → Bool) (l : List α) :
    (sortS le l).Perm l := by
  induction l with
  | nil => exact List.Perm.refl _
  | cons a t ih =>
    exact (perm_insS le a (sortS le t)).trans (ih.cons a)

theorem mem_sortS {α : Type} (le : α → α → Bool) (l : List α) (x : α) :
    x ∈ sortS le l ↔ x ∈ l :=
  (perm_sortS le l).mem_iff

theorem length_sortS {α : Type} (le : α → α → Bool) (l : List α) :
    (sortS le l).length = l.length :=
  (perm_sortS le l).length_eq

theorem insS_append_of_all_false {α : Type} {le : α → α → Bool} {a : α} {l : List α}
    (h : ∀ b ∈ l, le a b = false) : insS le a l = l ++ [a] := by
  induction l with
  | nil => rfl
  | cons b t ih =>
    show (if le a b then a :: b :: t else b :: insS le a t) = _
    rw [if_neg (by simp [h b (List.mem_cons_self b t)]),
      ih (fun c hc => h c (List.mem_cons_of_mem b hc))]
    rfl

theorem getLast?_cons_of_ne_nil {α : Type} {l : List α} (c : α) (h : l ≠ []) :
    (c :: l).getLast? = l.getLast? := by
  cases l with
  | nil => exact absurd rfl h
  | cons b t => exact List.getLast?_cons_cons

theorem mem_of_getLast?_eq {α : Type} {l : List α} {m : α} (h : l.getLast? = some m) :
    m ∈ l := by
  induction l with
  | nil => simp at h
  | cons a t ih =>
    cases t with
    | nil =>
      simp only [List.getLast?_singleton, Option.some.injEq] at h
      rw [← h]
      exact List.mem_cons_self a []
    | cons b ts =>
      rw [List.getLast?_cons_cons] at h
      exact List.mem_cons_of_mem a (ih h)

theorem getLast?_insS_of_le {α : Type} {le : α → α → Bool} {a b : α} {l : List α}
    (hb : b ∈ l) (hab : le a b = true) : (insS le a l).getLast? = l.getLast? := by
  induction l with
  | nil => simp at hb
  | cons c t ih =>
    show (if le a c then a :: c :: t else c :: insS le a t).getLast? = _
    by_cases h : le a c
    · rw [if_pos h]
      exact List.getLast?_cons_cons
    · rw [if_neg h]
      rcases List.mem_cons.mp hb with hbc | hbt
      · exact absurd (hbc ▸ hab) (by simp [h])
      · have ht : t ≠ [] := List.ne_nil_of_mem hbt
        rw [getLast?_cons_of_ne_nil c (insS_ne_nil le a t),
          getLast?_cons_of_ne_nil c ht]
        exact ih hbt

theorem getLast?_sortS_split {α : Type} (le : α → α → Bool) {u v : List α} {r : α}
    (hu : ∀ x ∈ u, le x r = true) (hv : ∀ x ∈ v, le r x = false) :
    (sortS le (u ++ r :: v)).getLast? = some r := by
  induction u with
  | nil =>
    show (insS le r (sortS le v)).getLast? = some r
    rw [insS_append_of_all_false
      (fun b hb => hv b ((mem_sortS le v b).mp hb))]
    exact List.getLast?_concat _
  | cons a t ih =>
    show (insS le a (sortS le (t ++ r :: v))).getLast? = some r
    have hr : r ∈ sortS le (t ++ r :: v) :=
      (mem_sortS le _ r).mpr (List.mem_append.mpr (Or.inr (List.mem_cons_self r v)))
    rw [getLast?_insS_of_le hr (hu a (List.mem_cons_self a t))]
    exact ih (fun x hx => hu x (List.mem_cons_of_mem a hx))

theorem pairwise_insS {α : Type} {le : α → α → Bool}
    (htot : ∀ a b, le a b = true ∨ le b a = true)
    (htr : ∀ a b c, le a b = true → le b c = true → le a c = true)
    (a : α) {l : List α} (hl : l.Pairwise (fun x y => le x y = true)) :
    (insS le a l).Pairwise (fun x y => le x y = true) := by
  induction l with
  | nil => simp [insS]
  | cons b t ih =>
    rcases List.pairwise_cons.mp hl with ⟨hb, ht⟩
    show (if le a b then a :: b :: t else b :: insS le a t).Pairwise _
    by_cases h : le a b
    · rw [if_pos h]
      refine List.pairwise_cons.mpr ⟨?_, hl⟩
      intro y hy
      rcases List.mem_cons.mp hy with hyb | hyt
      · exact hyb ▸ h
      · exact htr a b y h (hb y hyt)
    · rw [if_neg h]
      refine List.pairwise_cons.mpr ⟨?_, ih ht⟩
      intro y hy
      have hy' : y ∈ a :: t := (perm_insS le a t).mem_iff.mp hy
      rcases List.mem_cons.mp hy' with hya | hyt
      · rcases htot a b with hab | hba
        · exact absurd hab h
        · exact hya ▸ hba
      · exact hb y hyt

theorem pairwise_sortS {α : Type} {le : α → α → Bool}
    (htot : ∀ a b, le a b = true ∨ le b a = true)
    (htr : ∀ a b c, le a b = true → le b c = true → le a c = true)
    (l : List α) : (sortS le l).Pairwise (fun x y => le x y = true) := by
  induction l with
  | nil => simp [sortS]
  | cons a t ih => exact pairwise_insS htot htr a ih

theorem pairwise_getLast_max {α : Type} {R : α → α → Prop} {l : List α} {m : α}
    (hp : l.Pairwise R) (hm : l.getLast? = some m) :
    ∀ x ∈ l, x = m ∨ R x m := by
  induction l with
  | nil => simp
  | cons a t ih =>
    rcases List.pairwise_cons.mp hp with ⟨ha, ht⟩
    cases t with
    | nil =>
      intro x hx
      rcases List.mem_cons.mp hx with hxa | hxt
      · left
        rw [hxa]
        simpa using hm
      · simp at hxt
    | cons b ts =>
      rw [List.getLast?_cons_cons] at hm
      intro x hx
      rcases List.mem_cons.mp hx with hxa | hxt
      · right
        exact hxa ▸ ha m (mem_of_getLast?_eq hm)
      · exact ih ht hm x hxt

/-- C8: with fewer than two distinct publish dates, compute_changes returns
empty added, removed and changed lists, reports no predecessor date, and the
single date (or none at all) as the current one, without failing. -/
theorem c8_single_snapshot_degrades (dates : List Nat) (rows : List Row)
    (h : dates.length < 2) :
    compute_changes dates rows = (none, dates.getLast?, [], [], []) := by
  match dates with
  | [] => rfl
  | [d] => rfl
  | a :: b :: t => simp at h; omega

/-- Witness for C8 at a one-date axis. -/
theorem c8_single_snapshot_degrades_witness :
    ([5] : List Nat).length < 2 ∧
      compute_changes [5] [] = (none, some 5, [], [], []) :=
  ⟨by decide, c8_single_snapshot_degrades [5] [] (by decide)⟩

/-! Counting helpers for the diff partition. -/

theorem length_filterMap_eq_countP {α β : Type} (f : α → Option β) (l : List α) :
    (l.filterMap f).length = l.countP (fun a => (f a).isSome) := by
  induction l with
  | nil => rfl
  | cons a t ih =>
    rw [List.filterMap_cons, List.countP_cons]
    cases h : f a with
    | none => simp [h, ih]
    | some b => simp [h, ih]

theorem countP_add_three {α : Type} (p q r : α → Bool) (l : List α)
    (h : ∀ a ∈ l, ((if p a then 1 else 0) + (if q a then 1 else 0) +
      (if r a then 1 else 0) : Nat) = 1) :
    l.countP p + l.countP q + l.countP r = l.length := by
  induction l with
  | nil => rfl
  | cons a t ih =>
    rw [List.countP_cons, List.countP_cons, List.countP_cons, List.length_cons]
    have h1 := h a (List.mem_cons_self a t)
    have h2 := ih (fun b hb => h b (List.mem_cons_of_mem a hb))
    omega

theorem keys_rowsFor_toFinset (rows : List Row) (d : Nat) :
    ((rowsFor rows d).map Prod.fst).toFinset = snapshotKeys rows d := by
  unfold rowsFor snapshotKeys
  rw [keys_dictOf_toFinset, List.map_map]
  rfl

theorem length_rowsFor (rows : List Row) (d : Nat) :
    (rowsFor rows d).length = (snapshotKeys rows d).card := by
  unfold rowsFor
  rw [length_dictOf, List.map_map]
  rfl

theorem removed_count {old new : List (Key × String)}
    (hnd : (old.map Prod.fst).Nodup) :
    (old.filter (fun p => (alookup new p.1).isNone)).length =
      ((old.map Prod.fst).toFinset \ (new.map Prod.fst).toFinset).card := by
  have h1 : (old.filter (fun p => (alookup new p.1).isNone)).length
      = ((old.map Prod.fst).filter (fun k => (alookup new k).isNone)).length := by
    rw [← List.countP_eq_length_filter, ← List.countP_eq_length_filter, List.countP_map]
    rfl
  have hnd2 : ((old.map Prod.fst).filter (fun k => (alookup new k).isNone)).Nodup :=
    hnd.filter _
  have h2 : ((old.map Prod.fst).filter (fun k => (alookup new k).isNone)).length =
      ((old.map Prod.fst).filter (fun k => (alookup new k).isNone)).toFinset.card := by
    rw [List.card_toFinset, hnd2.dedup]
  rw [h1, h2, List.toFinset_filter]
  congr 1
  apply Finset.ext
  intro k
  rw [Finset.mem_filter, Finset.mem_sdiff, List.mem_toFinset, List.mem_toFinset]
  constructor
  · rintro ⟨hmem, hnone⟩
    refine ⟨hmem, ?_⟩
    rw [Option.isNone_iff_eq_none, alookup_eq_none_iff] at hnone
    exact hnone
  · rintro ⟨hmem, hnot⟩
    refine ⟨hmem, ?_⟩
    rw [Option.isNone_iff_eq_none, alookup_eq_none_iff]
    exact hnot

/-- C1: for every pair of snapshots handed to the diff engine, the key sets of
added and removed are disjoint, and the added, removed, changed and
silently-unchanged counts partition the union of the two snapshots' key
sets. -/
theorem c1_diff_partition (rows : List Row) (pd nd : Nat) :
    (∀ k, k ∈ (addedOf (rowsFor rows pd) (rowsFor rows nd)).map Prod.fst →
      k ∉ (removedOf (rowsFor rows pd) (rowsFor rows nd)).map Prod.fst) ∧
    (addedOf (rowsFor rows pd) (rowsFor rows nd)).length +
      (removedOf (rowsFor rows pd) (rowsFor rows nd)).length +
      (changedOf (rowsFor rows pd) (rowsFor rows nd)).length +
      unchangedCount (rowsFor rows pd) (rowsFor rows nd) =
      (snapshotKeys rows pd ∪ snapshotKeys rows nd).card := by
  constructor
  · intro k hka hkr
    rcases List.mem_map.mp hka with ⟨p, hp, hpk⟩
    have hp' := (mem_sortS pairLe _ p).mp hp
    rcases List.mem_filter.mp hp' with ⟨hpnew, _⟩
    rcases List.mem_map.mp hkr with ⟨q, hq, hqk⟩
    have hq' := (mem_sortS pairLe _ q).mp hq
    rcases List.mem_filter.mp hq' with ⟨_, hqnone⟩
    have hsome : ∃ v, alookup (rowsFor rows nd) q.1 = some v := by
      rw [hqk, ← hpk]
      exact (mem_keys_iff_alookup _ _).mp (List.mem_map.mpr ⟨p, hpnew, rfl⟩)
    rcases hsome with ⟨v, hv⟩
    rw [Option.isNone_iff_eq_none, hv] at hqnone
    exact Option.noConfusion hqnone
  · have hadd : (addedOf (rowsFor rows pd) (rowsFor rows nd)).length =
        (rowsFor rows nd).countP (fun p => (alookup (rowsFor rows pd) p.1).isNone) := by
      unfold addedOf
      rw [length_sortS, ← List.countP_eq_length_filter]
    have hrem : (removedOf (rowsFor rows pd) (rowsFor rows nd)).length =
        ((rowsFor rows pd).filter (fun p => (alookup (rowsFor rows nd) p.1).isNone)).length := by
      unfold removedOf
      rw [length_sortS]
    have hchg : (changedOf (rowsFor rows pd) (rowsFor rows nd)).length =
        (rowsFor rows nd).countP (fun p =>
          (match alookup (rowsFor rows pd) p.1 with
           | some ov => if normalize_status p.2 = normalize_status ov then none
                        else some (p.1, ov, p.2)
           | none => none).isSome) := by
      unfold changedOf
      rw [length_sortS, length_filterMap_eq_countP]
    have hunc : unchangedCount (rowsFor rows pd) (rowsFor rows nd) =
        (rowsFor rows nd).countP (fun p =>
          match alookup (rowsFor rows pd) p.1 with
          | some ov => decide (normalize_status p.2 = normalize_status ov)
          | none => false) := by
      unfold unchangedCount
      rw [List.countP_eq_length_filter]
    have hsum : (rowsFor rows nd).countP (fun p => (alookup (rowsFor rows pd) p.1).isNone) +
        (rowsFor rows nd).countP (fun p =>
          (match alookup (rowsFor rows pd) p.1 with
           | some ov => if normalize_status p.2 = normalize_status ov then none
                        else some (p.1, ov, p.2)
           | none => none).isSome) +
        (rowsFor rows nd).countP (fun p =>
          match alookup (rowsFor rows pd) p.1 with
          | some ov => decide (normalize_status p.2 = normalize_status ov)
          | none => false) = (rowsFor rows nd).length := by
      apply countP_add_three
      intro a _
      cases h : alookup (rowsFor rows pd) a.1 with
      | none => simp [h]
      | some ov =>
        by_cases he : normalize_status a.2 = normalize_status ov
        · simp [h, he]
        · simp [h, he]
    have hndold : ((rowsFor rows pd).map Prod.fst).Nodup := by
      unfold rowsFor
      exact nodup_keys_dictOf _
    have hremlen :
        ((rowsFor rows pd).filter (fun p => (alookup (rowsFor rows nd) p.1).isNone)).length =
        (snapshotKeys rows pd \ snapshotKeys rows nd).card := by
      rw [removed_count hndold, keys_rowsFor_toFinset, keys_rowsFor_toFinset]
    have hcard : (snapshotKeys rows pd \ snapshotKeys rows nd).card +
        (snapshotKeys rows nd).card =
        (snapshotKeys rows pd ∪ snapshotKeys rows nd).card :=
      Finset.card_sdiff_add_card _ _
    have hnewlen := length_rowsFor rows nd
    omega

/-- Witness for C1: a key that was added between two concrete snapshots is not
also reported as removed. -/
theorem c1_diff_partition_witness :
    (("D", "E", "F") : Key) ∈
      (addedOf (rowsFor [⟨1, "A", "B", "C", "S"⟩, ⟨2, "D", "E", "F", "T"⟩] 1)
        (rowsFor [⟨1, "A", "B", "C", "S"⟩, ⟨2, "D", "E", "F", "T"⟩] 2)).map Prod.fst ∧
    (("D", "E", "F") : Key) ∉
      (removedOf (rowsFor [⟨1, "A", "B", "C", "S"⟩, ⟨2, "D", "E", "F", "T"⟩] 1)
        (rowsFor [⟨1, "A", "B", "C", "S"⟩, ⟨2, "D", "E", "F", "T"⟩] 2)).map Prod.fst :=
  ⟨by decide,
    (c1_diff_partition [⟨1, "A", "B", "C", "S"⟩, ⟨2, "D", "E", "F", "T"⟩] 1 2).1
      ("D", "E", "F") (by decide)⟩

/-- C2: a key present in both snapshots is in the changed list exactly when
its normalized statuses differ, and with equal normalized statuses (even if
the raw strings differ) it appears in none of added, removed or changed. -/
theorem c2_changed_iff_normalized_differs (rows : List Row) (pd nd : Nat) (k : Key)
    (ov nv : String)
    (ho : alookup (rowsFor rows pd) k = some ov)
    (hn : alookup (rowsFor rows nd) k = some nv) :
    ((k, ov, nv) ∈ changedOf (rowsFor rows pd) (rowsFor rows nd) ↔
      normalize_status nv ≠ normalize_status ov) ∧
    (normalize_status nv = normalize_status ov →
      k ∉ (addedOf (rowsFor rows pd) (rowsFor rows nd)).map Prod.fst ∧
      k ∉ (removedOf (rowsFor rows pd) (rowsFor rows nd)).map Prod.fst ∧
      k ∉ (changedOf (rowsFor rows pd) (rowsFor rows nd)).map Prod.fst) := by
  have hmemchg : ∀ t, t ∈ changedOf (rowsFor rows pd) (rowsFor rows nd) ↔
      ∃ p ∈ rowsFor rows nd,
        (match alookup (rowsFor rows pd) p.1 with
         | some o => if normalize_status p.2 = normalize_status o then none
                     else some (p.1, o, p.2)
         | none => none) = some t := by
    intro t
    unfold changedOf
    rw [mem_sortS, List.mem_filterMap]
  constructor
  · constructor
    · intro hmem
      rcases (hmemchg _).mp hmem with ⟨p, hpnew, hpf⟩
      split at hpf
      · rename_i o hol
        split at hpf
        · exact Option.noConfusion hpf
        · rename_i he
          have h0 := Option.some.inj hpf
          have h2 : o = ov := congrArg (fun x => x.2.1) h0
          have h3 : p.2 = nv := congrArg (fun x => x.2.2) h0
          rw [h3, h2] at he
          exact he
      · exact Option.noConfusion hpf
    · intro hne
      apply (hmemchg _).mpr
      refine ⟨(k, nv), mem_of_alookup_eq_some hn, ?_⟩
      simp only [ho]
      rw [if_neg (by simpa using hne)]
  · intro heq
    refine ⟨?_, ?_, ?_⟩
    · intro hka
      rcases List.mem_map.mp hka with ⟨p, hp, hpk⟩
      have hp' := (mem_sortS pairLe _ p).mp hp
      rcases List.mem_filter.mp hp' with ⟨_, hpnone⟩
      rw [Option.isNone_iff_eq_none, hpk, ho] at hpnone
      exact Option.noConfusion hpnone
    · intro hkr
      rcases List.mem_map.mp hkr with ⟨q, hq, hqk⟩
      have hq' := (mem_sortS pairLe _ q).mp hq
      rcases List.mem_filter.mp hq' with ⟨_, hqnone⟩
      rw [Option.isNone_iff_eq_none, hqk, hn] at hqnone
      exact Option.noConfusion hqnone
    · intro hkc
      rcases List.mem_map.mp hkc with ⟨t, ht, htk⟩
      rcases (hmemchg _).mp ht with ⟨p, hpnew, hpf⟩
      split at hpf
      · rename_i o hol
        split at hpf
        · exact Option.noConfusion hpf
        · rename_i he
          have h0 := Option.some.inj hpf
          have h1 : p.1 = k := by
            rw [← htk, ← h0]
          have h2 : o = ov := by
            have hx := hol
            rw [h1, ho] at hx
            exact (Option.some.inj hx).symm
          have hndnew : ((rowsFor rows nd).map Prod.fst).Nodup := by
            unfold rowsFor
            exact nodup_keys_dictOf _
          have h3 : p.2 = nv := by
            have hv := alookup_of_mem_nodup hndnew (k := p.1) (v := p.2)
              (by simpa using hpnew)
            rw [h1, hn] at hv
            exact (Option.some.inj hv).symm
          rw [h3, h2] at he
          exact he heq
      · exact Option.noConfusion hpf

/-- Witness for C2: a concrete key present in both snapshots whose normalized
status changed is reported in changed. -/
theorem c2_changed_iff_normalized_differs_witness :
    alookup (rowsFor [⟨1, "M", "V", "S", "In Review"⟩,
        ⟨2, "M", "V", "S", "Coordination (1/2/2024)"⟩] 1) ("M", "V", "S") =
      some "In Review" ∧
    ((("M", "V", "S") : Key), "In Review", "Coordination (1/2/2024)") ∈
      changedOf
        (rowsFor [⟨1, "M", "V", "S", "In Review"⟩,
          ⟨2, "M", "V", "S", "Coordination (1/2/2024)"⟩] 1)
        (rowsFor [⟨1, "M", "V", "S", "In Review"⟩,
          ⟨2, "M", "V", "S", "Coordination (1/2/2024)"⟩] 2) :=
  ⟨by decide,
    (c2_changed_iff_normalized_differs
      [⟨1, "M", "V", "S", "In Review"⟩, ⟨2, "M", "V", "S", "Coordination (1/2/2024)"⟩]
      1 2 ("M", "V", "S") "In Review" "Coordination (1/2/2024)"
      (by decide) (by decide)).1.mpr (by decide)⟩

/-! Lemmas for the status-run walk. -/

theorem getLast?_of_cons {α : Type} (x : α) (xs : List α) :
    ∃ y, (x :: xs).getLast? = some y := by
  induction xs generalizing x with
  | nil => exact ⟨x, rfl⟩
  | cons b t ih =>
    rcases ih b with ⟨y, hy⟩
    exact ⟨y, by rw [List.getLast?_cons_cons]; exact hy⟩

theorem runWalk_eq_takeWhile (cur : String) (rev : List (Nat × String)) (r0 : Nat) :
    runWalk cur rev r0 =
      (((rev.takeWhile (fun e => decide (e.2 = cur))).getLast?).map Prod.fst).getD r0 := by
  induction rev generalizing r0 with
  | nil => rfl
  | cons e rest ih =>
    show (if e.2 = cur then runWalk cur rest e.1 else r0) = _
    rw [List.takeWhile_cons]
    by_cases he : e.2 = cur
    · rw [if_pos he, if_pos (by simpa using he), ih e.1]
      cases htw : rest.takeWhile (fun e => decide (e.2 = cur)) with
      | nil => rfl
      | cons x xs =>
        rcases getLast?_of_cons x xs with ⟨y, hy⟩
        rw [hy, getLast?_cons_of_ne_nil e (List.cons_ne_nil x xs), hy]
        simp
    · rw [if_neg he, if_neg (by simpa using he)]
      rfl

theorem dropLast_reverse_eq_tail_reverse {α : Type} (l : List α) :
    l.dropLast.reverse = l.reverse.tail := by
  induction l using List.reverseRecOn with
  | nil => rfl
  | append_singleton xs x ih =>
    rw [List.dropLast_concat, List.reverse_append]
    rfl

theorem dropLast_append_of_getLast? {α : Type} {l : List α} {a : α}
    (h : l.getLast? = some a) : l.dropLast ++ [a] = l := by
  induction l with
  | nil => simp at h
  | cons x t ih =>
    cases t with
    | nil =>
      simp only [List.getLast?_singleton, Option.some.injEq] at h
      rw [← h]
      rfl
    | cons y ts =>
      rw [List.getLast?_cons_cons] at h
      show x :: ((y :: ts).dropLast ++ [a]) = _
      rw [ih h]

/-- C5: status_since returns the date of the earliest entry of the maximal
contiguous suffix of the history whose normalized status equals the last
entry's; in particular it returns the third date for statuses A, B, A, A at
four consecutive dates, and the single date of a one-entry history. -/
theorem c5_status_since_run_start :
    (∀ (entries : List (Nat × String)) (last : Nat × String),
      entries.getLast? = some last →
      entries.Pairwise (fun a b => a.1 ≤ b.1) →
      ∃ pre sfx, entries = pre ++ sfx ∧ sfx ≠ [] ∧
        (∀ e ∈ sfx, e.2 = last.2) ∧
        (∀ p, pre.getLast? = some p → p.2 ≠ last.2) ∧
        status_since entries = sfx.head?.map Prod.fst) ∧
    status_since [(1, "A"), (2, "B"), (3, "A"), (4, "A")] = some 3 ∧
    (∀ (d : Nat) (s : String), status_since [(d, s)] = some d) := by
  refine ⟨?_, by decide, fun d s => rfl⟩
  intro entries last hlast _hsorted
  have hrevh : entries.reverse.head? = some last := by
    rw [List.head?_reverse]
    exact hlast
  obtain ⟨rest, hrev⟩ : ∃ rest, entries.reverse = last :: rest := by
    cases hr : entries.reverse with
    | nil => rw [hr] at hrevh; exact Option.noConfusion hrevh
    | cons x xs =>
      rw [hr] at hrevh
      exact ⟨xs, by rw [Option.some.inj hrevh]⟩
  refine ⟨(entries.reverse.dropWhile (fun e => decide (e.2 = last.2))).reverse,
    (entries.reverse.takeWhile (fun e => decide (e.2 = last.2))).reverse, ?_, ?_, ?_, ?_, ?_⟩
  · rw [← List.reverse_append, List.takeWhile_append_dropWhile, List.reverse_reverse]
  · rw [hrev, List.takeWhile_cons, if_pos (by simp)]
    simp
  · intro e he
    rw [List.mem_reverse] at he
    have := List.mem_takeWhile_imp he
    simpa using this
  · intro p hp
    rw [List.getLast?_reverse] at hp
    rcases dropWhile_head_false (fun e => decide (e.2 = last.2)) entries.reverse with
      hnil | ⟨a, t, hcons, hfa⟩
    · rw [hnil] at hp
      exact Option.noConfusion hp
    · rw [hcons] at hp
      have hpa : p = a := (Option.some.inj hp).symm
      rw [hpa]
      simpa using hfa
  · simp only [status_since, hlast]
    rw [runWalk_eq_takeWhile, List.head?_reverse]
    rw [dropLast_reverse_eq_tail_reverse, hrev]
    simp only [List.tail_cons]
    rw [List.takeWhile_cons, if_pos (by simp)]
    cases htw : rest.takeWhile (fun e => decide (e.2 = last.2)) with
    | nil => rfl
    | cons x xs =>
      rcases getLast?_of_cons x xs with ⟨y, hy⟩
      rw [hy, getLast?_cons_of_ne_nil last (List.cons_ne_nil x xs), hy]
      rfl

/-- Witness for C5 on the concrete A, B, A, A history. -/
theorem c5_status_since_run_start_witness :
    ([(1, "A"), (2, "B"), (3, "A"), (4, "A")] : List (Nat × String)).getLast? =
        some (4, "A") ∧
    ∃ pre sfx, ([(1, "A"), (2, "B"), (3, "A"), (4, "A")] : List (Nat × String)) =
        pre ++ sfx ∧ sfx ≠ [] ∧
      (∀ e ∈ sfx, e.2 = (4, "A").2) ∧
      (∀ p, pre.getLast? = some p → p.2 ≠ (4, "A").2) ∧
      status_since [(1, "A"), (2, "B"), (3, "A"), (4, "A")] = sfx.head?.map Prod.fst :=
  ⟨by decide,
    c5_status_since_run_start.1 [(1, "A"), (2, "B"), (3, "A"), (4, "A")] (4, "A")
      (by decide) (by decide)⟩

/-- C6: for every non-empty history, the date returned by status_since is the
date of some entry of the history and is at most the last entry's date. -/
theorem c6_status_since_bounds (entries : List (Nat × String)) (last : Nat × String)
    (hlast : entries.getLast? = some last)
    (hsorted : entries.Pairwise (fun a b => a.1 ≤ b.1)) :
    ∃ d, status_since entries = some d ∧ d ∈ entries.map Prod.fst ∧ d ≤ last.1 := by
  simp only [status_since, hlast]
  rw [runWalk_eq_takeWhile]
  have hsplit : entries.dropLast ++ [last] = entries := dropLast_append_of_getLast? hlast
  have hdl : ∀ y ∈ entries.dropLast, y.1 ≤ last.1 := by
    intro y hy
    have hpw : (entries.dropLast ++ [last]).Pairwise (fun a b => a.1 ≤ b.1) := by
      rw [hsplit]
      exact hsorted
    exact (List.pairwise_append.mp hpw).2.2 y hy last (List.mem_singleton.mpr rfl)
  cases htw : (entries.dropLast.reverse.takeWhile (fun e => decide (e.2 = last.2))).getLast? with
  | none =>
    refine ⟨last.1, rfl, ?_, le_refl _⟩
    exact List.mem_map.mpr ⟨last, mem_of_getLast?_eq hlast, rfl⟩
  | some y =>
    refine ⟨y.1, rfl, ?_, ?_⟩
    · have hmem : y ∈ entries.dropLast.reverse.takeWhile (fun e => decide (e.2 = last.2)) :=
        mem_of_getLast?_eq htw
      have hmem2 : y ∈ entries.dropLast.reverse :=
        (List.takeWhile_sublist _).mem hmem
      rw [List.mem_reverse] at hmem2
      have hmem3 : y ∈ entries := (List.dropLast_sublist entries).mem hmem2
      exact List.mem_map.mpr ⟨y, hmem3, rfl⟩
    · have hmem : y ∈ entries.dropLast.reverse.takeWhile (fun e => decide (e.2 = last.2)) :=
        mem_of_getLast?_eq htw
      have hmem2 : y ∈ entries.dropLast.reverse :=
        (List.takeWhile_sublist _).mem hmem
      rw [List.mem_reverse] at hmem2
      exact hdl y hmem2

/-- Witness for C6 on a concrete two-entry history. -/
theorem c6_status_since_bounds_witness :
    ([(1, "A"), (2, "A")] : List (Nat × String)).getLast? = some (2, "A") ∧
    ∃ d, status_since [(1, "A"), (2, "A")] = some d ∧
      d ∈ ([(1, "A"), (2, "A")] : List (Nat × String)).map Prod.fst ∧ d ≤ 2 :=
  ⟨by decide,
    c6_status_since_bounds [(1, "A"), (2, "A")] (2, "A") (by decide) (by decide)⟩

/-! Lemmas for the embedded-date search. -/

theorem searchDateGroup_eq_none_iff (l : List Char) :
    searchDateGroup l = none ↔ ∀ i, matchDateAt (l.drop i) = none := by
  induction l with
  | nil =>
    constructor
    · intro _ i
      rw [List.drop_nil]
      rfl
    · intro _
      rfl
  | cons c t ih =>
    show (match matchDateAt (c :: t) with
      | some g => some g
      | none => searchDateGroup t) = none ↔ _
    cases hm : matchDateAt (c :: t) with
    | some g =>
      simp only
      constructor
      · intro h
        exact Option.noConfusion h
      · intro h
        have := h 0
        rw [List.drop_zero] at this
        rw [hm] at this
        exact Option.noConfusion this
    | none =>
      simp only
      rw [ih]
      constructor
      · intro h i
        cases i with
        | zero => rw [List.drop_zero]; exact hm
        | succ j => rw [List.drop_succ_cons]; exact h j
      · intro h j
        have := h (j + 1)
        rwa [List.drop_succ_cons] at this

theorem searchDateGroup_eq_some_iff (l : List Char) (g : List Char) :
    searchDateGroup l = some g ↔
      ∃ i, matchDateAt (l.drop i) = some g ∧ ∀ j < i, matchDateAt (l.drop j) = none := by
  induction l with
  | nil =>
    constructor
    · intro h
      exact Option.noConfusion h
    · rintro ⟨i, hi, _⟩
      rw [List.drop_nil] at hi
      exact Option.noConfusion hi
  | cons c t ih =>
    show (match matchDateAt (c :: t) with
      | some g => some g
      | none => searchDateGroup t) = some g ↔ _
    cases hm : matchDateAt (c :: t) with
    | some g0 =>
      simp only
      constructor
      · intro h
        refine ⟨0, ?_, fun j hj => absurd hj (Nat.not_lt_zero j)⟩
        rw [List.drop_zero, hm]
        exact h
      · rintro ⟨i, hi, hj⟩
        cases i with
        | zero =>
          rw [List.drop_zero, hm] at hi
          exact hi
        | succ i0 =>
          have := hj 0 (Nat.succ_pos i0)
          rw [List.drop_zero, hm] at this
          exact Option.noConfusion this
    | none =>
      simp only
      rw [ih]
      constructor
      · rintro ⟨i, hi, hj⟩
        refine ⟨i + 1, by rwa [List.drop_succ_cons], ?_⟩
        intro j hji
        cases j with
        | zero => rw [List.drop_zero]; exact hm
        | succ j0 =>
          rw [List.drop_succ_cons]
          exact hj j0 (Nat.lt_of_succ_lt_succ hji)
      · rintro ⟨i, hi, hj⟩
        cases i with
        | zero =>
          rw [List.drop_zero, hm] at hi
          exact Option.noConfusion hi
        | succ i0 =>
          rw [List.drop_succ_cons] at hi
          refine ⟨i0, hi, ?_⟩
          intro j hji
          have := hj (j + 1) (Nat.succ_lt_succ hji)
          rwa [List.drop_succ_cons] at this

/-- Counterexample to C4: on the raw status "(a) (1/2/2024)" the first
parenthesized group is "a" and contains no date-pattern match, so the claim
says the extraction returns null; the code's regex searches the whole string
for a parenthesized date and returns "1/2/2024" from the second group. -/
theorem c4_embedded_date_counterexample :
    extract_embedded_date "(a) (1/2/2024)" = some "1/2/2024" ∧
      specExtractEmbeddedDate "(a) (1/2/2024)" = none := by
  constructor
  · rfl
  · rfl

/-- C4 amended: extract_embedded_date returns the capture of the leftmost
substring, anywhere in the raw status, matching an opening parenthesis,
one-or-two digits, slash, one-or-two digits, slash, four digits, and a closing
parenthesis; it returns null exactly when no position matches. -/
theorem c4_embedded_date_amended (s : String) :
    (extract_embedded_date s = none ↔ ∀ i, matchDateAt (s.data.drop i) = none) ∧
    (∀ d : String, extract_embedded_date s = some d ↔
      ∃ i, matchDateAt (s.data.drop i) = some d.data ∧
        ∀ j < i, matchDateAt (s.data.drop j) = none) := by
  constructor
  · unfold extract_embedded_date
    rw [Option.map_eq_none']
    exact searchDateGroup_eq_none_iff s.data
  · intro d
    unfold extract_embedded_date
    constructor
    · intro h
      rcases Option.map_eq_some'.mp h with ⟨g, hg, hmk⟩
      have hgd : g = d.data := by
        rw [← hmk]
      exact (searchDateGroup_eq_some_iff s.data g).mp hg |>.imp
        (fun i hi => ⟨hgd ▸ hi.1, hi.2⟩)
    · rintro ⟨i, hi, hj⟩
      have hs : searchDateGroup s.data = some d.data :=
        (searchDateGroup_eq_some_iff s.data d.data).mpr ⟨i, hi, hj⟩
      rw [hs]
      rfl

/-- Witness for C4 amended: the leftmost parenthesized date of a concrete
status string is extracted. -/
theorem c4_embedded_date_amended_witness :
    extract_embedded_date "Review Pending (9/2/2025)" = some "9/2/2025" :=
  ((c4_embedded_date_amended "Review Pending (9/2/2025)").2 "9/2/2025").mpr
    ⟨15, by decide, by decide⟩

/-! Fold characterizations for grouping and last-seen maps. -/

theorem alookup_appendAt {α β : Type} [DecidableEq α] (m : List (α × List β)) (k : α)
    (b : β) (x : α) :
    alookup (appendAt m k b) x =
      if x = k then some ((alookup m x).getD [] ++ [b]) else alookup m x := by
  induction m with
  | nil =>
    show alookup [(k, [b])] x = _
    by_cases h : x = k
    · simp [alookup, h]
    · simp only [alookup]
      rw [if_neg (fun hx : k = x => h hx.symm), if_neg h]
  | cons p t ih =>
    show alookup (if p.1 = k then (p.1, p.2 ++ [b]) :: t else p :: appendAt t k b) x = _
    by_cases hpk : p.1 = k
    · rw [if_pos hpk]
      by_cases hx : x = k
      · have hpx : p.1 = x := hpk.trans hx.symm
        simp [alookup, hpx, hx]
      · have hpx : ¬ p.1 = x := fun hc => hx (hc.symm.trans hpk)
        simp only [alookup, if_neg hpx, if_neg hx]
    · rw [if_neg hpk]
      by_cases hpx : p.1 = x
      · have hx : ¬ x = k := fun hc => hpk (hpx.trans hc)
        simp [alookup, hpx, hx]
      · simp only [alookup, if_neg hpx]
        exact ih

theorem alookup_foldl_appendAt {α β : Type} [DecidableEq α] (c : Row → Bool) (f : Row → α)
    (g : Row → β) (rows : List Row) (m : List (α × List β)) (x : α) :
    alookup (rows.foldl (fun m r => if c r then appendAt m (f r) (g r) else m) m) x =
      if rows.filter (fun r => c r && decide (f r = x)) = [] then alookup m x
      else some ((alookup m x).getD [] ++
        (rows.filter (fun r => c r && decide (f r = x))).map g) := by
  induction rows generalizing m with
  | nil => simp
  | cons r t ih =>
    rw [List.foldl_cons, List.filter_cons]
    by_cases hc : c r = true
    · have hL : (if c r = true then appendAt m (f r) (g r) else m) =
          appendAt m (f r) (g r) := if_pos hc
      rw [hL, ih (appendAt m (f r) (g r)), alookup_appendAt]
      by_cases hf : f r = x
      · have hpred : (c r && decide (f r = x)) = true := by simp [hc, hf]
        rw [if_pos hf.symm, if_pos hpred, if_neg (List.cons_ne_nil r _)]
        by_cases htf : t.filter (fun r => c r && decide (f r = x)) = []
        · rw [if_pos htf, htf]
          simp
        · rw [if_neg htf]
          simp [List.append_assoc]
      · have hpred : ¬ (c r && decide (f r = x)) = true := by simp [hf]
        rw [if_neg (fun hx : x = f r => hf hx.symm), if_neg hpred]
    · have hL : (if c r = true then appendAt m (f r) (g r) else m) = m := if_neg hc
      have hpred : ¬ (c r && decide (f r = x)) = true := by simp [hc]
      rw [hL, if_neg hpred]
      exact ih m

theorem alookup_statsHistoryMap (rows : List Row) (k : Key) :
    alookup (statsHistoryMap rows) k =
      if rows.filter (fun r => decide (rowKey r = k)) = [] then none
      else some ((rows.filter (fun r => decide (rowKey r = k))).map
        (fun r => (r.pub, normalize_status r.status))) := by
  have h := alookup_foldl_appendAt (fun _ => true) rowKey
    (fun r => (r.pub, normalize_status r.status)) rows [] k
  simpa [Bool.true_and] using h

theorem alookup_lastStatusStep (dates : List Nat) (m : List (Key × Nat × String))
    (r : Row) (x : Key) :
    alookup (lastStatusStep dates m r) x =
      if rowKey r = x then lsUpd dates (alookup m x) r else alookup m x := by
  unfold lastStatusStep
  cases h : alookup m (rowKey r) with
  | none =>
    show alookup (dictInsert m (rowKey r) (r.pub, normalize_status r.status)) x = _
    rw [alookup_dictInsert]
    by_cases hx : rowKey r = x
    · rw [if_pos hx.symm, if_pos hx]
      have hax : alookup m x = none := by rw [← hx]; exact h
      rw [hax]
      rfl
    · rw [if_neg (fun hxx : x = rowKey r => hx hxx.symm), if_neg hx]
  | some q =>
    show alookup (if dateGet dates q.1 < dateGet dates r.pub
        then dictInsert m (rowKey r) (r.pub, normalize_status r.status) else m) x = _
    by_cases hd : dateGet dates q.1 < dateGet dates r.pub
    · rw [if_pos hd, alookup_dictInsert]
      by_cases hx : rowKey r = x
      · rw [if_pos hx.symm, if_pos hx]
        have hax : alookup m x = some q := by rw [← hx]; exact h
        rw [hax]
        show _ = (if dateGet dates q.1 < dateGet dates r.pub then _ else _)
        rw [if_pos hd]
      · rw [if_neg (fun hxx : x = rowKey r => hx hxx.symm), if_neg hx]
    · rw [if_neg hd]
      by_cases hx : rowKey r = x
      · rw [if_pos hx]
        have hax : alookup m x = some q := by rw [← hx]; exact h
        rw [hax]
        show _ = (if dateGet dates q.1 < dateGet dates r.pub then _ else _)
        rw [if_neg hd]
      · rw [if_neg hx]

theorem alookup_lastStatusMap (dates : List Nat) (rows : List Row) (x : Key) :
    alookup (lastStatusMap dates rows) x =
      (rows.filter (fun r => decide (rowKey r = x))).foldl (lsUpd dates) none := by
  suffices h : ∀ m, alookup (rows.foldl (lastStatusStep dates) m) x =
      (rows.filter (fun r => decide (rowKey r = x))).foldl (lsUpd dates) (alookup m x) by
    exact h []
  induction rows with
  | nil => intro m; rfl
  | cons r t ih =>
    intro m
    rw [List.foldl_cons, List.filter_cons, ih (lastStatusStep dates m r),
      alookup_lastStatusStep]
    by_cases hx : rowKey r = x
    · rw [if_pos hx, if_pos (by simp [hx]), List.foldl_cons]
    · rw [if_neg hx, if_neg (by simp [hx])]

theorem lsUpd_fold_keeps (dates : List Nat) {r : Row} {v : List Row}
    (hv : ∀ x ∈ v, dateGet dates x.pub ≤ dateGet dates r.pub) :
    v.foldl (lsUpd dates) (some (r.pub, normalize_status r.status)) =
      some (r.pub, normalize_status r.status) := by
  induction v with
  | nil => rfl
  | cons a t ih =>
    have hstep : lsUpd dates (some (r.pub, normalize_status r.status)) a =
        some (r.pub, normalize_status r.status) := by
      show (if dateGet dates r.pub < dateGet dates a.pub
        then some (a.pub, normalize_status a.status)
        else some (r.pub, normalize_status r.status)) = _
      rw [if_neg (by
        have := hv a (List.mem_cons_self a t)
        omega)]
    rw [List.foldl_cons, hstep]
    exact ih (fun x hx => hv x (List.mem_cons_of_mem a hx))

theorem lsUpd_fold_inv (dates : List Nat) {r : Row} {u : List Row}
    (hu : ∀ x ∈ u, dateGet dates x.pub < dateGet dates r.pub) :
    ∀ acc, (acc = none ∨ ∃ q, acc = some q ∧ dateGet dates q.1 < dateGet dates r.pub) →
      (u.foldl (lsUpd dates) acc = none ∨
        ∃ q, u.foldl (lsUpd dates) acc = some q ∧
          dateGet dates q.1 < dateGet dates r.pub) := by
  induction u with
  | nil => intro acc h; exact h
  | cons a t ih =>
    intro acc hacc
    rw [List.foldl_cons]
    apply ih (fun x hx => hu x (List.mem_cons_of_mem a hx))
    rcases hacc with hnone | ⟨q, hq, hqd⟩
    · right
      refine ⟨(a.pub, normalize_status a.status), ?_, ?_⟩
      · rw [hnone]; rfl
      · exact hu a (List.mem_cons_self a t)
    · rw [hq]
      right
      by_cases hd : dateGet dates q.1 < dateGet dates a.pub
      · refine ⟨(a.pub, normalize_status a.status), ?_, hu a (List.mem_cons_self a t)⟩
        show (if dateGet dates q.1 < dateGet dates a.pub then _ else _) = _
        rw [if_pos hd]
      · refine ⟨q, ?_, hqd⟩
        show (if dateGet dates q.1 < dateGet dates a.pub then _ else _) = _
        rw [if_neg hd]

theorem lsUpd_fold_first_max (dates : List Nat) {u v : List Row} {r : Row}
    (hu : ∀ x ∈ u, dateGet dates x.pub < dateGet dates r.pub)
    (hv : ∀ x ∈ v, dateGet dates x.pub ≤ dateGet dates r.pub) :
    (u ++ r :: v).foldl (lsUpd dates) none = some (r.pub, normalize_status r.status) := by
  rw [List.foldl_append, List.foldl_cons]
  have hstep : lsUpd dates (u.foldl (lsUpd dates) none) r =
      some (r.pub, normalize_status r.status) := by
    rcases lsUpd_fold_inv dates hu none (Or.inl rfl) with hnone | ⟨q, hq, hqd⟩
    · rw [hnone]; rfl
    · rw [hq]
      show (if dateGet dates q.1 < dateGet dates r.pub then _ else _) = _
      rw [if_pos hqd]
  rw [hstep]
  exact lsUpd_fold_keeps dates hv

theorem fold_someLast {α β : Type} (l : List (α × β)) (q : α × β) (acc : Option β) :
    (l ++ [q]).foldl (fun _ p => some p.2) acc = some q.2 := by
  rw [List.foldl_append]
  rfl

theorem lastUpd_eq_filter_fold {α β : Type} [DecidableEq α] (ps : List (α × β)) (x : α)
    (acc : Option β) :
    ps.foldl (fun acc p => if p.1 = x then some p.2 else acc) acc =
      (ps.filter (fun p => decide (p.1 = x))).foldl (fun _ p => some p.2) acc := by
  induction ps generalizing acc with
  | nil => rfl
  | cons p t ih =>
    rw [List.foldl_cons, List.filter_cons]
    by_cases h : p.1 = x
    · rw [if_pos h, if_pos (by simp [h]), List.foldl_cons]
      exact ih _
    · rw [if_neg h, if_neg (by simp [h])]
      exact ih acc

theorem alookup_rowsFor (rows : List Row) (d : Nat) (k : Key) :
    alookup (rowsFor rows d) k =
      (rows.filter (fun x => decide (rowKey x = k) && (x.pub == d))).foldl
        (fun _ r => some (stripStr r.status)) none := by
  unfold rowsFor
  rw [alookup_dictOf, lastUpd_eq_filter_fold, List.filter_map, List.filter_filter,
    List.foldl_map]
  rfl

/-- Counterexample to C3: on two rows with the same date and key, statuses
"Finalization" then "On Hold", the disappearance detector's last-seen map
keeps the first-encountered status "Finalization" (its update condition is
strictly-greater, so an equal-date duplicate never overwrites), not the
last-encountered "On Hold"; consequently the key is treated as terminal and
the disappeared list is empty, although the last-encountered duplicate is
non-terminal and the key misses the latest snapshot. -/
theorem c3_duplicate_counterexample :
    alookup (lastStatusMap [1]
        [⟨1, "M", "V", "S", "Finalization"⟩, ⟨1, "M", "V", "S", "On Hold"⟩])
      ("M", "V", "S") = some (1, "Finalization") ∧
    disappearedList
        [⟨1, "M", "V", "S", "Finalization"⟩, ⟨1, "M", "V", "S", "On Hold"⟩,
          ⟨2, "N", "W", "T", "In Review"⟩] [1, 2] = [] ∧
    normalize_status "On Hold" ∉ terminalStatuses := by
  refine ⟨by decide, by decide, by decide⟩

/-- C3 amended: the diff map and the status-run history treat the
last-encountered row of a (date, key) as authoritative, deterministically in
input order; the disappearance detector, whose update comparison is
strictly-greater, instead keeps the first-encountered row among a key's rows
attaining its maximal date, so its last-seen status reflects the first
duplicate at that date. -/
theorem c3_amended_duplicate_handling :
    (∀ (rows : List Row) (d : Nat) (k : Key) (u : List Row) (r : Row),
      rows.filter (fun x => decide (rowKey x = k) && (x.pub == d)) = u ++ [r] →
      alookup (rowsFor rows d) k = some (stripStr r.status)) ∧
    (∀ (dates : List Nat) (rows : List Row) (k : Key) (u v : List Row) (r : Row),
      rows.filter (fun x => decide (rowKey x = k)) = u ++ r :: v →
      (∀ x ∈ u, dateGet dates x.pub ≤ dateGet dates r.pub) →
      (∀ x ∈ v, dateGet dates x.pub < dateGet dates r.pub) →
      ∃ es, alookup (statsHistoryMap rows) k = some es ∧
        (sortEntries dates es).getLast? = some (r.pub, normalize_status r.status)) ∧
    (∀ (dates : List Nat) (rows : List Row) (k : Key) (u v : List Row) (r : Row),
      rows.filter (fun x => decide (rowKey x = k)) = u ++ r :: v →
      (∀ x ∈ u, dateGet dates x.pub < dateGet dates r.pub) →
      (∀ x ∈ v, dateGet dates x.pub ≤ dateGet dates r.pub) →
      alookup (lastStatusMap dates rows) k =
        some (r.pub, normalize_status r.status)) := by
  refine ⟨?_, ?_, ?_⟩
  · intro rows d k u r hsplit
    rw [alookup_rowsFor, hsplit, List.foldl_append]
    rfl
  · intro dates rows k u v r hsplit hu hv
    have hne : rows.filter (fun x => decide (rowKey x = k)) ≠ [] := by
      rw [hsplit]
      simp
    refine ⟨(rows.filter (fun x => decide (rowKey x = k))).map
      (fun r => (r.pub, normalize_status r.status)), ?_, ?_⟩
    · rw [alookup_statsHistoryMap, if_neg hne]
    · rw [hsplit, List.map_append, List.map_cons]
      unfold sortEntries
      apply getLast?_sortS_split
      · intro e he
        rcases List.mem_map.mp he with ⟨x, hx, hex⟩
        rw [← hex]
        show decide (dateGet dates x.pub ≤ dateGet dates r.pub) = true
        exact decide_eq_true (hu x hx)
      · intro e he
        rcases List.mem_map.mp he with ⟨x, hx, hex⟩
        rw [← hex]
        show decide (dateGet dates r.pub ≤ dateGet dates x.pub) = false
        exact decide_eq_false (by
          have := hv x hx
          omega)
  · intro dates rows k u v r hsplit hu hv
    rw [alookup_lastStatusMap, hsplit]
    exact lsUpd_fold_first_max dates hu hv

/-- Witness for C3 amended on two duplicate rows of the same date and key:
the diff map and the history's last entry reflect the second row, the
detector's map the first. -/
theorem c3_amended_duplicate_handling_witness :
    alookup (rowsFor
        [⟨1, "M", "V", "S", "Finalization"⟩, ⟨1, "M", "V", "S", "On Hold"⟩] 1)
      ("M", "V", "S") = some (stripStr "On Hold") ∧
    (∃ es, alookup (statsHistoryMap
        [⟨1, "M", "V", "S", "Finalization"⟩, ⟨1, "M", "V", "S", "On Hold"⟩])
        ("M", "V", "S") = some es ∧
      (sortEntries [1] es).getLast? = some (1, normalize_status "On Hold")) ∧
    alookup (lastStatusMap [1]
        [⟨1, "M", "V", "S", "Finalization"⟩, ⟨1, "M", "V", "S", "On Hold"⟩])
      ("M", "V", "S") = some (1, normalize_status "Finalization") :=
  ⟨c3_amended_duplicate_handling.1
      [⟨1, "M", "V", "S", "Finalization"⟩, ⟨1, "M", "V", "S", "On Hold"⟩] 1
      ("M", "V", "S") [⟨1, "M", "V", "S", "Finalization"⟩]
      ⟨1, "M", "V", "S", "On Hold"⟩ (by decide),
    c3_amended_duplicate_handling.2.1 [1]
      [⟨1, "M", "V", "S", "Finalization"⟩, ⟨1, "M", "V", "S", "On Hold"⟩]
      ("M", "V", "S") [⟨1, "M", "V", "S", "Finalization"⟩] []
      ⟨1, "M", "V", "S", "On Hold"⟩ (by decide) (by decide) (by decide),
    c3_amended_duplicate_handling.2.2 [1]
      [⟨1, "M", "V", "S", "Finalization"⟩, ⟨1, "M", "V", "S", "On Hold"⟩]
      ("M", "V", "S") [] [⟨1, "M", "V", "S", "On Hold"⟩]
      ⟨1, "M", "V", "S", "Finalization"⟩ (by decide) (by decide) (by decide)⟩

/-! Lemmas for the disappearance detector. -/

theorem lsUpd_fold_origin (dates : List Nat) (l : List Row) :
    ∀ (acc : Option (Nat × String)) (q : Nat × String),
      l.foldl (lsUpd dates) acc = some q →
      acc = some q ∨ ∃ r ∈ l, q = (r.pub, normalize_status r.status) := by
  induction l with
  | nil => exact fun acc q h => Or.inl h
  | cons a t ih =>
    intro acc q h
    rw [List.foldl_cons] at h
    rcases ih (lsUpd dates acc a) q h with hstep | ⟨r, hr, hq⟩
    · cases acc with
      | none =>
        right
        refine ⟨a, List.mem_cons_self a t, ?_⟩
        exact (Option.some.inj hstep).symm
      | some p =>
        have hred : lsUpd dates (some p) a =
            if dateGet dates p.1 < dateGet dates a.pub
            then some (a.pub, normalize_status a.status) else some p := rfl
        rw [hred] at hstep
        by_cases hd : dateGet dates p.1 < dateGet dates a.pub
        · rw [if_pos hd] at hstep
          right
          exact ⟨a, List.mem_cons_self a t, (Option.some.inj hstep).symm⟩
        · rw [if_neg hd] at hstep
          left
          exact hstep
    · right
      exact ⟨r, List.mem_cons_of_mem a hr, hq⟩

theorem lastStatusMap_origin {dates : List Nat} {rows : List Row} {k : Key}
    {d : Nat} {s : String}
    (h : alookup (lastStatusMap dates rows) k = some (d, s)) :
    ∃ r ∈ rows, rowKey r = k ∧ r.pub = d ∧ normalize_status r.status = s := by
  rw [alookup_lastStatusMap] at h
  rcases lsUpd_fold_origin dates _ none (d, s) h with hnone | ⟨r, hr, hq⟩
  · exact Option.noConfusion hnone
  · rcases List.mem_filter.mp hr with ⟨hmem, hpred⟩
    refine ⟨r, hmem, by simpa using hpred, ?_, ?_⟩
    · exact (congrArg Prod.fst hq).symm
    · exact (congrArg Prod.snd hq).symm

theorem nodup_keys_lastStatusMap (dates : List Nat) (rows : List Row) :
    ((lastStatusMap dates rows).map Prod.fst).Nodup := by
  suffices h : ∀ m : List (Key × Nat × String), (m.map Prod.fst).Nodup →
      ((rows.foldl (lastStatusStep dates) m).map Prod.fst).Nodup from h [] (by simp)
  induction rows with
  | nil => exact fun m hm => hm
  | cons r t ih =>
    intro m hm
    rw [List.foldl_cons]
    apply ih
    unfold lastStatusStep
    cases h : alookup m (rowKey r) with
    | none =>
      show ((dictInsert m (rowKey r) (r.pub, normalize_status r.status)).map Prod.fst).Nodup
      exact nodup_keys_dictInsert hm _ _
    | some q =>
      show ((if dateGet dates q.1 < dateGet dates r.pub
        then dictInsert m (rowKey r) (r.pub, normalize_status r.status)
        else m).map Prod.fst).Nodup
      by_cases hd : dateGet dates q.1 < dateGet dates r.pub
      · rw [if_pos hd]
        exact nodup_keys_dictInsert hm _ _
      · rw [if_neg hd]
        exact hm

theorem mostRecentDate_spec {dates : List Nat} (hne : dates ≠ []) :
    mostRecentDate dates ∈ dates ∧ ∀ d ∈ dates, d ≤ mostRecentDate dates := by
  have htot : ∀ a b : Nat, (decide (dateGet dates a ≤ dateGet dates b) = true) ∨
      (decide (dateGet dates b ≤ dateGet dates a) = true) := by
    intro a b
    rcases Nat.le_total (dateGet dates a) (dateGet dates b) with h | h
    · exact Or.inl (decide_eq_true h)
    · exact Or.inr (decide_eq_true h)
  have htr : ∀ a b c : Nat, decide (dateGet dates a ≤ dateGet dates b) = true →
      decide (dateGet dates b ≤ dateGet dates c) = true →
      decide (dateGet dates a ≤ dateGet dates c) = true := by
    intro a b c h1 h2
    exact decide_eq_true (Nat.le_trans (of_decide_eq_true h1) (of_decide_eq_true h2))
  cases hs : sortS (fun a b => decide (dateGet dates a ≤ dateGet dates b)) dates with
  | nil =>
    have := length_sortS (fun a b => decide (dateGet dates a ≤ dateGet dates b)) dates
    rw [hs] at this
    cases dates with
    | nil => exact absurd rfl hne
    | cons x xs => simp at this
  | cons x xs =>
    rcases getLast?_of_cons x xs with ⟨m, hm⟩
    have hmr : mostRecentDate dates = m := by
      unfold mostRecentDate
      rw [hs, hm]
      rfl
    have hmmem : m ∈ dates := by
      have : m ∈ x :: xs := mem_of_getLast?_eq hm
      rw [← hs] at this
      exact (mem_sortS _ _ _).mp this
    have hpw := pairwise_sortS htot htr dates
    rw [hs] at hpw
    refine ⟨hmr ▸ hmmem, ?_⟩
    intro d hd
    have hd' : d ∈ x :: xs := by
      rw [← hs]
      exact (mem_sortS _ _ _).mpr hd
    rcases pairwise_getLast_max hpw hm d hd' with hdm | hdm
    · rw [hmr, hdm]
    · have := of_decide_eq_true hdm
      rw [dateGet, if_pos hd, dateGet, if_pos hmmem] at this
      rw [hmr]
      exact this

/-- C7: an entity key appears in the disappeared list exactly when its
recorded last-seen date is strictly earlier than the most recent date of the
axis and its last normalized status is not terminal; the most recent date is
the maximum of the axis; the output is sorted by last-seen date descending. -/
theorem c7_disappearances (rows : List Row) (dates : List Nat)
    (hne : dates ≠ []) (hdm : ∀ r ∈ rows, r.pub ∈ dates) :
    mostRecentDate dates ∈ dates ∧
    (∀ d ∈ dates, d ≤ mostRecentDate dates) ∧
    (∀ (k : Key) (d : Nat) (s : String),
      (k, d, s) ∈ disappearedList rows dates ↔
        (alookup (lastStatusMap dates rows) k = some (d, s) ∧
          d < mostRecentDate dates ∧ s ∉ terminalStatuses)) ∧
    (disappearedList rows dates).Pairwise (fun a b => b.2.1 ≤ a.2.1) := by
  rcases mostRecentDate_spec hne with ⟨hmr1, hmr2⟩
  have horigin : ∀ (k : Key) (d : Nat) (s : String),
      alookup (lastStatusMap dates rows) k = some (d, s) → d ∈ dates := by
    intro k d s h
    rcases lastStatusMap_origin h with ⟨r, hr, _, hpub, _⟩
    rw [← hpub]
    exact hdm r hr
  have hmemdl : ∀ (k : Key) (d : Nat) (s : String),
      (k, d, s) ∈ disappearedList rows dates ↔
        ((k, d, s) ∈ lastStatusMap dates rows ∧ d ≠ mostRecentDate dates ∧
          s ∉ terminalStatuses) := by
    intro k d s
    unfold disappearedList
    rw [mem_sortS, List.mem_filterMap]
    constructor
    · rintro ⟨p, hp, hpf⟩
      by_cases hc : p.2.1 ≠ mostRecentDate dates ∧ p.2.2 ∉ terminalStatuses
      · rw [if_pos hc] at hpf
        have hpe : p = (k, d, s) := Option.some.inj hpf
        rw [hpe] at hp hc
        exact ⟨hp, hc⟩
      · rw [if_neg hc] at hpf
        exact Option.noConfusion hpf
    · rintro ⟨hp, hc1, hc2⟩
      refine ⟨(k, d, s), hp, ?_⟩
      rw [if_pos ⟨hc1, hc2⟩]
  refine ⟨hmr1, hmr2, ?_, ?_⟩
  · intro k d s
    rw [hmemdl k d s]
    constructor
    · rintro ⟨hp, hc1, hc2⟩
      have hl : alookup (lastStatusMap dates rows) k = some (d, s) :=
        alookup_of_mem_nodup (nodup_keys_lastStatusMap dates rows) hp
      refine ⟨hl, ?_, hc2⟩
      have hdd : d ∈ dates := horigin k d s hl
      have := hmr2 d hdd
      omega
    · rintro ⟨hl, hc1, hc2⟩
      exact ⟨mem_of_alookup_eq_some hl, by omega, hc2⟩
  · have hpw := @pairwise_sortS _ (descByLastDate dates)
      (fun a b => by
        unfold descByLastDate
        rcases Nat.le_total (dateGet dates b.2.1) (dateGet dates a.2.1) with h | h
        · exact Or.inl (decide_eq_true h)
        · exact Or.inr (decide_eq_true h))
      (fun a b c h1 h2 => by
        unfold descByLastDate at *
        exact decide_eq_true
          (Nat.le_trans (of_decide_eq_true h2) (of_decide_eq_true h1)))
      ((lastStatusMap dates rows).filterMap (fun p =>
        if p.2.1 ≠ mostRecentDate dates ∧ p.2.2 ∉ terminalStatuses then some p else none))
    have hdd : ∀ p ∈ disappearedList rows dates, p.2.1 ∈ dates := by
      intro p hp
      rcases (hmemdl p.1 p.2.1 p.2.2).mp (by simpa using hp) with ⟨hmem, _, _⟩
      have hl : alookup (lastStatusMap dates rows) p.1 = some (p.2.1, p.2.2) :=
        alookup_of_mem_nodup (nodup_keys_lastStatusMap dates rows) (by simpa using hmem)
      exact horigin p.1 p.2.1 p.2.2 hl
    apply List.Pairwise.imp_of_mem ?_ hpw
    intro a b ha hb hr
    have ha' : a.2.1 ∈ dates := hdd a ha
    have hb' : b.2.1 ∈ dates := hdd b hb
    unfold descByLastDate at hr
    have := of_decide_eq_true hr
    rw [dateGet, if_pos hb', dateGet, if_pos ha'] at this
    exact this

/-- Witness for C7: a key seen only at the earlier of two dates with a
non-terminal status is reported as disappeared. -/
theorem c7_disappearances_witness :
    ((("M", "V", "S") : Key), 1, "In Review") ∈
      disappearedList [⟨1, "M", "V", "S", "In Review"⟩, ⟨2, "N", "W", "T", "Coordination"⟩]
        [1, 2] :=
  ((c7_disappearances [⟨1, "M", "V", "S", "In Review"⟩, ⟨2, "N", "W", "T", "Coordination"⟩]
      [1, 2] (by decide) (by decide)).2.2.1 ("M", "V", "S") 1 "In Review").mpr
    (by refine ⟨by decide, by decide, by decide⟩)

theorem alookup_map_values {α β γ : Type} [DecidableEq α] (m : List (α × β))
    (f : β → γ) (x : α) :
    alookup (m.map (fun p => (p.1, f p.2))) x = (alookup m x).map f := by
  induction m with
  | nil => rfl
  | cons p t ih =>
    by_cases hc : p.1 = x
    · simp [alookup, hc]
    · simp only [List.map_cons, alookup, if_neg hc]
      exact ih

theorem build_module_histories_bool_cond (rows : List Row) (dates : List Nat)
    (keys : List Key) :
    build_module_histories rows dates keys =
      (rows.foldl (fun m r => if (fun r => decide (rowKey r ∈ keys)) r = true
        then appendAt m (keyStr (rowKey r)) (histEntry r) else m) []).map
        (fun p => (p.1, sortS (histDateLe dates) p.2)) := by
  unfold build_module_histories
  have hfn : (fun (m : List (String × List (Nat × String × Option String))) r =>
      if rowKey r ∈ keys then appendAt m (keyStr (rowKey r)) (histEntry r) else m) =
      (fun m r => if (fun r => decide (rowKey r ∈ keys)) r = true
        then appendAt m (keyStr (rowKey r)) (histEntry r) else m) := by
    funext m r
    by_cases h : rowKey r ∈ keys <;> simp [h]
  rw [hfn]

/-- C10: the History Builder's result map has exactly the string keys of the
requested entity keys that occur in at least one row — a requested key with no
observations contributes nothing, a non-requested key never appears — and no
key is ever mapped to an empty history. -/
theorem c10_history_builder_keys (rows : List Row) (dates : List Nat)
    (keys : List Key) :
    (∀ ks : String, ks ∈ (build_module_histories rows dates keys).map Prod.fst ↔
      ∃ k, k ∈ keys ∧ (∃ r ∈ rows, rowKey r = k) ∧ ks = keyStr k) ∧
    (∀ (ks : String) v,
      alookup (build_module_histories rows dates keys) ks = some v → v ≠ []) := by
  have hlook : ∀ ks : String, alookup (build_module_histories rows dates keys) ks =
      (if rows.filter (fun r => decide (rowKey r ∈ keys) &&
          decide (keyStr (rowKey r) = ks)) = [] then none
        else some ((rows.filter (fun r => decide (rowKey r ∈ keys) &&
          decide (keyStr (rowKey r) = ks))).map histEntry)).map
        (sortS (histDateLe dates)) := by
    intro ks
    rw [build_module_histories_bool_cond, alookup_map_values,
      alookup_foldl_appendAt (fun r => decide (rowKey r ∈ keys))
        (fun r => keyStr (rowKey r)) histEntry rows [] ks]
    by_cases h : rows.filter (fun r => decide (rowKey r ∈ keys) &&
        decide (keyStr (rowKey r) = ks)) = []
    · rw [if_pos h, if_pos h]
      rfl
    · rw [if_neg h, if_neg h]
      rfl
  constructor
  · intro ks
    rw [mem_keys_iff_alookup]
    constructor
    · rintro ⟨v, hv⟩
      rw [hlook ks] at hv
      by_cases h : rows.filter (fun r => decide (rowKey r ∈ keys) &&
          decide (keyStr (rowKey r) = ks)) = []
      · rw [if_pos h] at hv
        exact Option.noConfusion hv
      · rcases List.exists_cons_of_ne_nil h with ⟨r0, t0, hr0⟩
        have hr0mem : r0 ∈ rows.filter (fun r => decide (rowKey r ∈ keys) &&
            decide (keyStr (rowKey r) = ks)) := by
          rw [hr0]
          exact List.mem_cons_self r0 t0
        rcases List.mem_filter.mp hr0mem with ⟨hmem, hpred⟩
        have hpred' : rowKey r0 ∈ keys ∧ keyStr (rowKey r0) = ks := by
          simpa using hpred
        exact ⟨rowKey r0, hpred'.1, ⟨r0, hmem, rfl⟩, hpred'.2.symm⟩
    · rintro ⟨k, hk, ⟨r0, hr0, hkey⟩, hks⟩
      rw [hlook ks]
      have hne : rows.filter (fun r => decide (rowKey r ∈ keys) &&
          decide (keyStr (rowKey r) = ks)) ≠ [] := by
        intro hnil
        have := List.filter_eq_nil_iff.mp hnil r0 hr0
        apply this
        simp [hkey, hk, hks]
      rw [if_neg hne]
      exact ⟨_, rfl⟩
  · intro ks v hv
    rw [hlook ks] at hv
    by_cases h : rows.filter (fun r => decide (rowKey r ∈ keys) &&
        decide (keyStr (rowKey r) = ks)) = []
    · rw [if_pos h] at hv
      exact Option.noConfusion hv
    · rw [if_neg h] at hv
      have hveq : v = sortS (histDateLe dates)
          ((rows.filter (fun r => decide (rowKey r ∈ keys) &&
            decide (keyStr (rowKey r) = ks))).map histEntry) :=
        (Option.some.inj hv).symm
      intro hnil
      rw [hnil] at hveq
      have hlen := congrArg List.length hveq
      rw [List.length_nil, length_sortS, List.length_map] at hlen
      exact h (List.eq_nil_of_length_eq_zero hlen.symm)

/-- Witness for C10: one observed requested key yields a singleton map with a
non-empty history. -/
theorem c10_history_builder_keys_witness :
    alookup (build_module_histories [⟨1, "a", "b", "c", "X"⟩] [1] [("a", "b", "c")])
        "a||b||c" = some [(1, "X", none)] ∧
    ([(1, "X", none)] : List (Nat × String × Option String)) ≠ [] :=
  ⟨by decide,
    (c10_history_builder_keys [⟨1, "a", "b", "c", "X"⟩] [1] [("a", "b", "c")]).2
      "a||b||c" [(1, "X", none)] (by decide)⟩

end MIP
